import Mathlib

/-!
Verification of the `make-sites` compression container format against its
natural-language specification.  The definitions below are a shallow
embedding of `src/js/compression-fixed.js` (class `MakeSitesCompression`,
the variant the repository ships as its fixed implementation).  JavaScript
strings are modelled as `List Char`, byte buffers as `List Nat` with every
element below 256, and thrown exceptions as `Except` errors.  Browser
builtins used by the source (`TextEncoder`, `TextDecoder`, `btoa`, `atob`,
`JSON.stringify`/`JSON.parse`, `DataView`, `Math`) are modelled by
executable Lean functions on the inputs the source feeds them.
-/

namespace MakeSites

/-! ## TextEncoder / TextDecoder (UTF-8) -/

/-- `new TextEncoder().encode` on a single character: standard UTF-8. -/
def utf8EncodeChar (c : Char) : List Nat :=
  let v := c.toNat
  if v < 0x80 then [v]
  else if v < 0x800 then [0xC0 + v / 64, 0x80 + v % 64]
  else if v < 0x10000 then [0xE0 + v / 4096, 0x80 + v / 64 % 64, 0x80 + v % 64]
  else [0xF0 + v / 262144, 0x80 + v / 4096 % 64, 0x80 + v / 64 % 64, 0x80 + v % 64]

/-- `new TextEncoder().encode(s)`: UTF-8 bytes of the string. -/
def utf8Encode : List Char → List Nat
  | [] => []
  | c :: cs => utf8EncodeChar c ++ utf8Encode cs

/-- JavaScript `String.length`: the number of UTF-16 code units
(characters above U+FFFF count twice). -/
def utf16Len : List Char → Nat
  | [] => 0
  | c :: cs => (if c.toNat < 0x10000 then 1 else 2) + utf16Len cs

/-- U+FFFD, the replacement character a non-fatal `TextDecoder` emits. -/
def replChar : Char := '�'

/-- Is `b` a UTF-8 continuation byte? -/
def isCont (b : Nat) : Bool := 0x80 ≤ b && b < 0xC0

/-- Turn a decoded scalar value into a `Char`, falling back to U+FFFD for
values outside the Unicode scalar range (surrogates, too large). -/
def mkCharDec (v : Nat) : Char :=
  if v < 0xD800 ∨ (0xE000 ≤ v ∧ v < 0x110000) then Char.ofNat v else replChar

/-- Fuelled UTF-8 decoding loop; the fuel only bounds the number of
characters produced, so `bs.length` is always enough. -/
def utf8DecodeAux : Nat → List Nat → List Char
  | 0, _ => []
  | _ + 1, [] => []
  | fuel + 1, b0 :: rest =>
    if b0 < 0x80 then Char.ofNat b0 :: utf8DecodeAux fuel rest
    else if b0 < 0xC2 then replChar :: utf8DecodeAux fuel rest
    else if b0 < 0xE0 then
      match rest with
      | b1 :: rest2 =>
        if isCont b1 then
          mkCharDec ((b0 - 0xC0) * 64 + (b1 - 0x80)) :: utf8DecodeAux fuel rest2
        else replChar :: utf8DecodeAux fuel rest
      | [] => [replChar]
    else if b0 < 0xF0 then
      match rest with
      | b1 :: b2 :: rest3 =>
        if isCont b1 && isCont b2 then
          mkCharDec ((b0 - 0xE0) * 4096 + (b1 - 0x80) * 64 + (b2 - 0x80)) ::
            utf8DecodeAux fuel rest3
        else replChar :: utf8DecodeAux fuel rest
      | _ => [replChar]
    else if b0 < 0xF5 then
      match rest with
      | b1 :: b2 :: b3 :: rest4 =>
        if isCont b1 && isCont b2 && isCont b3 then
          mkCharDec ((b0 - 0xF0) * 262144 + (b1 - 0x80) * 4096 +
              (b2 - 0x80) * 64 + (b3 - 0x80)) :: utf8DecodeAux fuel rest4
        else replChar :: utf8DecodeAux fuel rest
      | _ => [replChar]
    else replChar :: utf8DecodeAux fuel rest

/-- `new TextDecoder().decode(bs)` (non-fatal mode: invalid sequences
become U+FFFD instead of throwing). -/
def utf8Decode (bs : List Nat) : List Char := utf8DecodeAux bs.length bs

theorem char_toNat_lt (c : Char) : c.toNat < 1114112 := by
  rcases c.valid with h | ⟨_, h⟩
  · exact Nat.lt_trans h (by norm_num)
  · exact h

theorem utf8EncodeChar_length_pos (c : Char) : 0 < (utf8EncodeChar c).length := by
  simp only [utf8EncodeChar]
  split_ifs <;> simp

theorem length_le_utf8Encode_length (s : List Char) :
    s.length ≤ (utf8Encode s).length := by
  induction s with
  | nil => simp [utf8Encode]
  | cons c cs ih =>
    have := utf8EncodeChar_length_pos c
    simp only [utf8Encode, List.length_append, List.length_cons]
    omega

theorem utf8EncodeChar_lt_256 (c : Char) : ∀ b ∈ utf8EncodeChar c, b < 256 := by
  have h4 : c.toNat < 1114112 := char_toNat_lt c
  intro b hb
  simp only [utf8EncodeChar] at hb
  split_ifs at hb <;> simp only [List.mem_cons, List.mem_singleton,
    List.not_mem_nil, or_false] at hb <;> omega

theorem utf8Encode_lt_256 (s : List Char) : ∀ b ∈ utf8Encode s, b < 256 := by
  induction s with
  | nil => simp [utf8Encode]
  | cons c cs ih =>
    intro b hb
    simp only [utf8Encode, List.mem_append] at hb
    rcases hb with hb | hb
    · exact utf8EncodeChar_lt_256 c b hb
    · exact ih b hb

theorem utf8DecodeAux_nil (fuel : Nat) : utf8DecodeAux fuel [] = [] := by
  cases fuel <;> rfl

theorem utf8DecodeAux_encChar (c : Char) (fuel : Nat) (tail : List Nat) :
    utf8DecodeAux (fuel + 1) (utf8EncodeChar c ++ tail) = c :: utf8DecodeAux fuel tail := by
  have hval : c.toNat < 0xd800 ∨ (0xdfff < c.toNat ∧ c.toNat < 0x110000) := c.valid
  have hlt : c.toNat < 1114112 := char_toNat_lt c
  simp only [utf8EncodeChar]
  by_cases h1 : c.toNat < 0x80
  · rw [if_pos h1]
    simp only [List.cons_append, List.nil_append, utf8DecodeAux]
    rw [if_pos h1, Char.ofNat_toNat]
    simp
  · rw [if_neg h1]
    by_cases h2 : c.toNat < 0x800
    · rw [if_pos h2]
      simp only [List.cons_append, List.nil_append, utf8DecodeAux]
      rw [if_neg (by omega), if_neg (by omega), if_pos (by omega)]
      simp only [List.append_eq, List.cons_append, List.nil_append]
      rw [if_pos (by simp only [isCont]; simp; omega)]
      have hv : (0xC0 + c.toNat / 64 - 0xC0) * 64 + (0x80 + c.toNat % 64 - 0x80)
          = c.toNat := by omega
      rw [hv, mkCharDec, if_pos (by omega), Char.ofNat_toNat]
    · rw [if_neg h2]
      by_cases h3 : c.toNat < 0x10000
      · rw [if_pos h3]
        simp only [List.cons_append, List.nil_append, utf8DecodeAux]
        rw [if_neg (by omega), if_neg (by omega), if_neg (by omega), if_pos (by omega)]
        simp only [List.append_eq, List.cons_append, List.nil_append]
        rw [if_pos (by simp only [isCont]; simp; omega)]
        have hv : (0xE0 + c.toNat / 4096 - 0xE0) * 4096 +
            (0x80 + c.toNat / 64 % 64 - 0x80) * 64 + (0x80 + c.toNat % 64 - 0x80)
            = c.toNat := by omega
        rw [hv, mkCharDec, if_pos (by omega), Char.ofNat_toNat]
      · rw [if_neg h3]
        simp only [List.cons_append, List.nil_append, utf8DecodeAux]
        rw [if_neg (by omega), if_neg (by omega), if_neg (by omega), if_neg (by omega),
          if_pos (by omega)]
        simp only [List.append_eq, List.cons_append, List.nil_append]
        rw [if_pos (by simp only [isCont]; simp; omega)]
        have hv : (0xF0 + c.toNat / 262144 - 0xF0) * 262144 +
            (0x80 + c.toNat / 4096 % 64 - 0x80) * 4096 +
            (0x80 + c.toNat / 64 % 64 - 0x80) * 64 + (0x80 + c.toNat % 64 - 0x80)
            = c.toNat := by omega
        rw [hv, mkCharDec, if_pos (by omega), Char.ofNat_toNat]

theorem utf8DecodeAux_encode (s : List Char) (fuel : Nat) (tail : List Nat) :
    utf8DecodeAux (s.length + fuel) (utf8Encode s ++ tail) = s ++ utf8DecodeAux fuel tail := by
  induction s generalizing fuel with
  | nil => simp [utf8Encode]
  | cons c cs ih =>
    have harr : cs.length + fuel + 1 = cs.length + 1 + fuel := by omega
    simp only [utf8Encode, List.length_cons, List.append_assoc, List.cons_append]
    rw [show cs.length + 1 + fuel = (cs.length + fuel) + 1 by omega,
      utf8DecodeAux_encChar, ih]

/-- Round trip: decoding the UTF-8 encoding of a string gives it back. -/
theorem utf8Decode_utf8Encode (s : List Char) : utf8Decode (utf8Encode s) = s := by
  have hle := length_le_utf8Encode_length s
  have hsplit : (utf8Encode s).length = s.length + ((utf8Encode s).length - s.length) := by
    omega
  rw [utf8Decode, hsplit, show utf8Encode s = utf8Encode s ++ [] by simp,
    utf8DecodeAux_encode, utf8DecodeAux_nil, List.append_nil]

/-! ## Decimal numerals (`JSON.stringify` / `JSON.parse` / `toString` on numbers) -/

/-- The decimal digit characters. -/
def digitChar (d : Nat) : Char := "0123456789".data.getD d '0'

/-- Most-significant-first decimal digits of a positive number; the fuel
argument dominates the number so the recursion is structural. -/
def natToCharsAux : Nat → Nat → List Char
  | 0, _ => []
  | _ + 1, 0 => []
  | fuel + 1, n + 1 => natToCharsAux fuel ((n + 1) / 10) ++ [digitChar ((n + 1) % 10)]

/-- Decimal rendering of a natural number, as JavaScript prints integers. -/
def natToChars (n : Nat) : List Char := if n = 0 then ['0'] else natToCharsAux n n

/-- Split a leading run of decimal digits off a character list. -/
def takeDigits : List Char → List Char × List Char
  | [] => ([], [])
  | c :: cs => if c.isDigit then
      let p := takeDigits cs
      (c :: p.1, p.2)
    else ([], c :: cs)

/-- Numeric value of a most-significant-first digit list. -/
def digitsToNat (ds : List Char) : Nat := ds.foldl (fun a c => a * 10 + (c.toNat - 48)) 0

/-- Parse a nonempty run of decimal digits into a number, returning the rest. -/
def parseNum (s : List Char) : Option (Nat × List Char) :=
  match takeDigits s with
  | ([], _) => none
  | (ds, r) => some (digitsToNat ds, r)

theorem digitChar_isDigit : ∀ d, d < 10 → (digitChar d).isDigit = true := by decide

theorem digitChar_toNat : ∀ d, d < 10 → (digitChar d).toNat = 48 + d := by decide

theorem digitsToNat_append_digit (ds : List Char) (c : Char) :
    digitsToNat (ds ++ [c]) = digitsToNat ds * 10 + (c.toNat - 48) := by
  simp [digitsToNat, List.foldl_append]

theorem natToCharsAux_spec (fuel : Nat) : ∀ n, 0 < n → n ≤ fuel →
    digitsToNat (natToCharsAux fuel n) = n ∧
    natToCharsAux fuel n ≠ [] ∧
    (∀ c ∈ natToCharsAux fuel n, c.isDigit = true) := by
  induction fuel with
  | zero => intro n h1 h2; omega
  | succ fuel ih =>
    intro n h1 h2
    obtain ⟨m, rfl⟩ : ∃ m, n = m + 1 := ⟨n - 1, by omega⟩
    rw [natToCharsAux]
    by_cases hq : (m + 1) / 10 = 0
    · rw [hq]
      have h10 : m + 1 < 10 := by omega
      rw [show natToCharsAux fuel 0 = [] from by cases fuel <;> rfl]
      refine ⟨?_, by simp, ?_⟩
      · simp [digitsToNat, digitChar_toNat _ (by omega : (m + 1) % 10 < 10)]
        omega
      · intro c hc
        simp only [List.nil_append, List.mem_singleton] at hc
        subst hc
        exact digitChar_isDigit _ (by omega)
    · have hle : (m + 1) / 10 ≤ fuel := by omega
      obtain ⟨hval, hne, hdig⟩ := ih ((m + 1) / 10) (by omega) hle
      refine ⟨?_, by simp, ?_⟩
      · rw [digitsToNat_append_digit, hval,
          digitChar_toNat _ (by omega : (m + 1) % 10 < 10)]
        omega
      · intro c hc
        rcases List.mem_append.1 hc with hc | hc
        · exact hdig c hc
        · simp only [List.mem_singleton] at hc
          subst hc
          exact digitChar_isDigit _ (by omega)

theorem natToChars_spec (n : Nat) :
    digitsToNat (natToChars n) = n ∧ natToChars n ≠ [] ∧
    (∀ c ∈ natToChars n, c.isDigit = true) := by
  rw [natToChars]
  by_cases h : n = 0
  · subst h
    exact ⟨by decide, by decide, by decide⟩
  · rw [if_neg h]
    exact natToCharsAux_spec n n (by omega) le_rfl

theorem takeDigits_append (ds : List Char) (rest : List Char)
    (hds : ∀ c ∈ ds, c.isDigit = true)
    (hrest : ∀ c, rest = c :: rest.tail → c.isDigit = false) :
    takeDigits (ds ++ rest) = (ds, rest) := by
  induction ds with
  | nil =>
    cases rest with
    | nil => rfl
    | cons c cs =>
      have := hrest c rfl
      simp [takeDigits, this]
  | cons c cs ih =>
    have hc := hds c (by simp)
    rw [List.cons_append, takeDigits, if_pos hc,
      ih (fun d hd => hds d (by simp [hd]))]

theorem parseNum_natToChars (n : Nat) (rest : List Char)
    (hrest : ∀ c, rest = c :: rest.tail → c.isDigit = false) :
    parseNum (natToChars n ++ rest) = some (n, rest) := by
  obtain ⟨hval, hne, hdig⟩ := natToChars_spec n
  rw [parseNum, takeDigits_append _ _ hdig hrest]
  cases hcs : natToChars n with
  | nil => exact absurd hcs hne
  | cons c cs => simp only [← hcs, hval]

/-! ## Metadata record and its JSON wire form

`compress` builds the object literal
`\x7b v: 1, c: 'none', f: format, os: content.length, cs: encoded.length, ts: Date.now() \x7d`
and `_encodeWithMetadata` serialises it with `JSON.stringify`;
`_decodeWithMetadata` parses it back with `JSON.parse`.  `JSON.stringify`
is modelled exactly on such records (fixed key order, no whitespace);
`JSON.parse` is modelled on that canonical serialisation, returning
`none` on anything else (the source only ever parses strings its own
encoder produced, or adversarial bytes where any parse failure is the
same `MetadataParseFailure` outcome). -/

structure Metadata where
  v : Nat
  c : List Char
  f : List Char
  os : Nat
  cs : Nat
  ts : Nat
deriving Repr, DecidableEq

/-- A character that `JSON.stringify` emits verbatim inside a string
literal (no escaping needed). -/
def jsonPlainChar (c : Char) : Bool := c ≠ '"' && c ≠ '\\' && 0x20 ≤ c.toNat

/-- All characters of the string are emitted verbatim by `JSON.stringify`. -/
def jsonPlain (s : List Char) : Bool := s.all jsonPlainChar

/-- Lower-case hexadecimal digit. -/
def hexDigit (n : Nat) : Char := "0123456789abcdef".data.getD n '0'

/-- `JSON.stringify` escaping of a single character inside a string literal. -/
def jsonEscapeChar (c : Char) : List Char :=
  if c = '"' then ['\\', '"']
  else if c = '\\' then ['\\', '\\']
  else if c = '\n' then ['\\', 'n']
  else if c = '\r' then ['\\', 'r']
  else if c = '\t' then ['\\', 't']
  else if c = '\x08' then ['\\', 'b']
  else if c = '\x0c' then ['\\', 'f']
  else if c.toNat < 0x20 then
    ['\\', 'u', '0', '0', hexDigit (c.toNat / 16), hexDigit (c.toNat % 16)]
  else [c]

def jsonEscape : List Char → List Char
  | [] => []
  | c :: cs => jsonEscapeChar c ++ jsonEscape cs

/-- A JSON string literal, quotes included. -/
def jsonStringLit (s : List Char) : List Char := '"' :: jsonEscape s ++ ['"']

/-- `JSON.stringify(metadata)` for the metadata record, matching the
key insertion order of the object literal in `compress`. -/
def renderMeta (m : Metadata) : List Char :=
  "\x7b\"v\":".data ++ natToChars m.v ++
  ",\"c\":".data ++ jsonStringLit m.c ++
  ",\"f\":".data ++ jsonStringLit m.f ++
  ",\"os\":".data ++ natToChars m.os ++
  ",\"cs\":".data ++ natToChars m.cs ++
  ",\"ts\":".data ++ natToChars m.ts ++ "\x7d".data

/-- Strip an expected literal prefix, returning the remainder. -/
def stripLit : List Char → List Char → Option (List Char)
  | [], s => some s
  | _ :: _, [] => none
  | p :: ps, c :: cs => if c = p then stripLit ps cs else none

/-- Inverse of a single-character escape sequence. -/
def unescapeChar (e : Char) : Option Char :=
  if e = '"' then some '"'
  else if e = '\\' then some '\\'
  else if e = '/' then some '/'
  else if e = 'n' then some '\n'
  else if e = 'r' then some '\r'
  else if e = 't' then some '\t'
  else if e = 'b' then some '\x08'
  else if e = 'f' then some '\x0c'
  else none

/-- Fuelled loop for `parseJStr`; the fuel dominates the input length. -/
def parseJStrAux : Nat → List Char → Option (List Char × List Char)
  | 0, _ => none
  | _ + 1, [] => none
  | fuel + 1, c :: cs =>
    if c = '"' then some ([], cs)
    else if c = '\\' then
      match cs with
      | e :: cs2 =>
        match unescapeChar e, parseJStrAux fuel cs2 with
        | some u, some p => some (u :: p.1, p.2)
        | _, _ => none
      | [] => none
    else
      match parseJStrAux fuel cs with
      | some p => some (c :: p.1, p.2)
      | none => none

/-- Parse the body of a JSON string literal up to its closing quote. -/
def parseJStr (s : List Char) : Option (List Char × List Char) :=
  parseJStrAux s.length s

/-- `JSON.parse` on the canonical metadata serialisation. -/
def parseMeta (s : List Char) : Option Metadata := do
  let s ← stripLit "\x7b\"v\":".data s
  let (v, s) ← parseNum s
  let s ← stripLit ",\"c\":\"".data s
  let (c, s) ← parseJStr s
  let s ← stripLit ",\"f\":\"".data s
  let (f, s) ← parseJStr s
  let s ← stripLit ",\"os\":".data s
  let (os, s) ← parseNum s
  let s ← stripLit ",\"cs\":".data s
  let (cs, s) ← parseNum s
  let s ← stripLit ",\"ts\":".data s
  let (ts, s) ← parseNum s
  match s with
  | ['\x7d'] => some ⟨v, c, f, os, cs, ts⟩
  | _ => none

theorem jsonEscape_plain (s : List Char) (h : jsonPlain s = true) : jsonEscape s = s := by
  induction s with
  | nil => rfl
  | cons c cs ih =>
    simp only [jsonPlain, List.all_cons, Bool.and_eq_true] at h
    obtain ⟨hc, hcs⟩ := h
    simp only [jsonPlainChar, Bool.and_eq_true, bne_iff_ne, ne_eq, decide_eq_true_eq] at hc
    rw [jsonEscape, jsonEscapeChar]
    rw [if_neg (by simpa using hc.1.1), if_neg (by simpa using hc.1.2)]
    have h20 : ¬ c.toNat < 0x20 := by omega
    have hn : c ≠ '\n' := by rintro rfl; revert h20; decide
    have hr : c ≠ '\r' := by rintro rfl; revert h20; decide
    have ht : c ≠ '\t' := by rintro rfl; revert h20; decide
    have hb : c ≠ '\x08' := by rintro rfl; revert h20; decide
    have hf : c ≠ '\x0c' := by rintro rfl; revert h20; decide
    rw [if_neg hn, if_neg hr, if_neg ht, if_neg hb, if_neg hf, if_neg h20]
    simp [ih hcs]

theorem stripLit_append (p : List Char) (rest : List Char) :
    stripLit p (p ++ rest) = some rest := by
  induction p with
  | nil => rfl
  | cons c cs ih => simp [stripLit, ih]

theorem parseJStrAux_plain (s : List Char) (rest : List Char) (fuel : Nat)
    (h : jsonPlain s = true) :
    parseJStrAux (s.length + fuel + 1) (s ++ '"' :: rest) = some (s, rest) := by
  induction s generalizing fuel with
  | nil =>
    rw [List.nil_append, List.length_nil, Nat.zero_add]
    simp only [parseJStrAux, if_pos]
  | cons c cs ih =>
    simp only [jsonPlain, List.all_cons, Bool.and_eq_true] at h
    obtain ⟨hc, hcs⟩ := h
    simp only [jsonPlainChar, Bool.and_eq_true, bne_iff_ne, ne_eq, decide_eq_true_eq] at hc
    rw [List.cons_append, List.length_cons,
      show cs.length + 1 + fuel + 1 = (cs.length + fuel + 1) + 1 by omega]
    simp only [parseJStrAux]
    rw [if_neg (by simpa using hc.1.1), if_neg (by simpa using hc.1.2), ih fuel hcs]

theorem parseJStr_plain (s : List Char) (rest : List Char) (h : jsonPlain s = true) :
    parseJStr (s ++ '"' :: rest) = some (s, rest) := by
  rw [parseJStr, List.length_append, List.length_cons,
    show s.length + (rest.length + 1) = s.length + rest.length + 1 by omega,
    parseJStrAux_plain s rest rest.length h]

theorem parseNum_comma_lit (n : Nat) (Y : List Char) :
    parseNum (natToChars n ++ ',' :: Y) = some (n, ',' :: Y) := by
  apply parseNum_natToChars
  intro d h
  rw [List.tail_cons] at h
  injection h with h1 _
  rw [← h1]
  decide

theorem parseNum_brace_lit (n : Nat) (Y : List Char) :
    parseNum (natToChars n ++ '\x7d' :: Y) = some (n, '\x7d' :: Y) := by
  apply parseNum_natToChars
  intro d h
  rw [List.tail_cons] at h
  injection h with h1 _
  rw [← h1]
  decide

/-- `JSON.parse` inverts `JSON.stringify` on the canonical metadata record
(for strings whose characters need no escaping, which covers every codec
and format tag). -/
theorem parseMeta_renderMeta (m : Metadata) (hc : jsonPlain m.c = true)
    (hf : jsonPlain m.f = true) : parseMeta (renderMeta m) = some m := by
  obtain ⟨v, c, f, os, cs, ts⟩ := m
  simp only [jsonPlain] at hc hf
  have hjc := fun rest => parseJStr_plain c rest hc
  have hjf := fun rest => parseJStr_plain f rest hf
  have l1 : ("\x7b\"v\":".data : List Char) = ['\x7b', '"', 'v', '"', ':'] := rfl
  have l2 : (",\"c\":".data : List Char) = [',', '"', 'c', '"', ':'] := rfl
  have l2q : (",\"c\":\"".data : List Char) = [',', '"', 'c', '"', ':', '"'] := rfl
  have l3 : (",\"f\":".data : List Char) = [',', '"', 'f', '"', ':'] := rfl
  have l3q : (",\"f\":\"".data : List Char) = [',', '"', 'f', '"', ':', '"'] := rfl
  have l4 : (",\"os\":".data : List Char) = [',', '"', 'o', 's', '"', ':'] := rfl
  have l5 : (",\"cs\":".data : List Char) = [',', '"', 'c', 's', '"', ':'] := rfl
  have l6 : (",\"ts\":".data : List Char) = [',', '"', 't', 's', '"', ':'] := rfl
  have l7 : ("\x7d".data : List Char) = ['\x7d'] := rfl
  unfold parseMeta renderMeta jsonStringLit
  rw [jsonEscape_plain _ hc, jsonEscape_plain _ hf]
  simp only [l1, l2, l2q, l3, l3q, l4, l5, l6, l7, List.append_assoc, List.cons_append,
    List.nil_append]
  simp only [stripLit, if_pos, Option.bind_eq_bind, Option.some_bind, parseNum_comma_lit,
    parseNum_brace_lit, hjc, hjf]

/-! ## Base64 transport (`btoa` / `atob`)

The source converts a byte array to a binary string with
`String.fromCharCode(...combined)` and feeds it to `btoa`; decoding maps
`atob`'s output back to bytes via `charCodeAt`.  Both compositions are
modelled directly on byte lists.  `atob` is modelled on canonical padded
base64, which is exactly what `btoa` emits. -/

def b64Alphabet : List Char :=
  "ABCDEFGHIJKLMNOPQRSTUVWXYZabcdefghijklmnopqrstuvwxyz0123456789+/".data

def b64Char (n : Nat) : Char := b64Alphabet.getD n '?'

def b64Index (c : Char) : Option Nat := b64Alphabet.findIdx? (· = c)

/-- `btoa(String.fromCharCode(...bytes))`. -/
def b64EncodeBytes : List Nat → List Char
  | [] => []
  | [a] => [b64Char (a / 4), b64Char (a % 4 * 16), '=', '=']
  | [a, b] => [b64Char (a / 4), b64Char (a % 4 * 16 + b / 16), b64Char (b % 16 * 4), '=']
  | a :: b :: c :: rest =>
      b64Char (a / 4) :: b64Char (a % 4 * 16 + b / 16) :: b64Char (b % 16 * 4 + c / 64) ::
        b64Char (c % 64) :: b64EncodeBytes rest

/-- `atob` followed by the `charCodeAt` loop: base64 text back to bytes,
`none` when the input is not valid (padded) base64. -/
def atobChars : List Char → Option (List Nat)
  | [] => some []
  | c1 :: c2 :: c3 :: c4 :: rest =>
    match b64Index c1, b64Index c2 with
    | some s1, some s2 =>
      if c3 = '=' then
        if c4 = '=' ∧ rest = [] then some [s1 * 4 + s2 / 16] else none
      else
        match b64Index c3 with
        | some s3 =>
          if c4 = '=' then
            if rest = [] then some [s1 * 4 + s2 / 16, s2 % 16 * 16 + s3 / 4] else none
          else
            match b64Index c4, atobChars rest with
            | some s4, some tl =>
                some ((s1 * 4 + s2 / 16) :: (s2 % 16 * 16 + s3 / 4) :: (s3 % 4 * 64 + s4) :: tl)
            | _, _ => none
        | none => none
    | _, _ => none
  | _ => none

theorem b64Index_b64Char : ∀ n, n < 64 → b64Index (b64Char n) = some n := by decide

theorem b64Char_ne_pad : ∀ n, n < 64 → b64Char n ≠ '=' := by decide

/-- Round trip: `atob` inverts `btoa` on byte lists. -/
theorem atobChars_b64EncodeBytes (bs : List Nat) (hb : ∀ b ∈ bs, b < 256) :
    atobChars (b64EncodeBytes bs) = some bs := by
  induction bs using b64EncodeBytes.induct with
  | case1 => rfl
  | case2 a =>
    have ha : a < 256 := hb a (by simp)
    rw [b64EncodeBytes, atobChars,
      b64Index_b64Char _ (by omega), b64Index_b64Char _ (by omega)]
    simp only [if_true, and_self]
    rw [show a / 4 * 4 + a % 4 * 16 / 16 = a from by omega]
  | case3 a b =>
    have ha : a < 256 := hb a (by simp)
    have hbb : b < 256 := hb b (by simp)
    rw [b64EncodeBytes, atobChars,
      b64Index_b64Char _ (by omega), b64Index_b64Char _ (by omega)]
    simp only []
    rw [if_neg (b64Char_ne_pad _ (by omega)), b64Index_b64Char _ (by omega)]
    simp only [if_true, and_self]
    rw [show a / 4 * 4 + (a % 4 * 16 + b / 16) / 16 = a from by omega,
      show (a % 4 * 16 + b / 16) % 16 * 16 + b % 16 * 4 / 4 = b from by omega]
  | case4 a b c rest ih =>
    have ha : a < 256 := hb a (by simp)
    have hbb : b < 256 := hb b (by simp)
    have hcc : c < 256 := hb c (by simp)
    have hrest : ∀ x ∈ rest, x < 256 := fun x hx => hb x (by simp [hx])
    rw [b64EncodeBytes, atobChars,
      b64Index_b64Char _ (by omega), b64Index_b64Char _ (by omega)]
    simp only []
    rw [if_neg (b64Char_ne_pad _ (by omega)), b64Index_b64Char _ (by omega)]
    simp only []
    rw [if_neg (b64Char_ne_pad _ (by omega)), b64Index_b64Char _ (by omega), ih hrest]
    simp only []
    rw [show a / 4 * 4 + (a % 4 * 16 + b / 16) / 16 = a from by omega,
      show (a % 4 * 16 + b / 16) % 16 * 16 + (b % 16 * 4 + c / 64) / 4 = b from by omega,
      show (b % 16 * 4 + c / 64) % 4 * 64 + c % 64 = c from by omega]

/-! ## The container: `_encodeWithMetadata` / `_decodeWithMetadata`

Models lines 123-177 of `src/js/compression-fixed.js`. -/

/-- `DataView.setUint32(0, n, true)`: 4 little-endian bytes (wrapping
modulo 2^32 like the JavaScript typed-array write). -/
def le32 (n : Nat) : List Nat :=
  [n % 256, n / 256 % 256, n / 65536 % 256, n / 16777216 % 256]

/-- `DataView.getUint32(0, true)` on the first four bytes. -/
def readLe32 (bs : List Nat) : Nat :=
  bs.getD 0 0 + 256 * bs.getD 1 0 + 65536 * bs.getD 2 0 + 16777216 * bs.getD 3 0

theorem readLe32_le32 (n : Nat) (h : n < 4294967296) (rest : List Nat) :
    readLe32 (le32 n ++ rest) = n := by
  simp only [le32, readLe32, List.cons_append, List.getD_cons_zero, List.getD_cons_succ]
  omega

/-- The error kinds a decode attempt can surface.  A JavaScript `throw`
inside a `try` block that rethrows with a wrapper message is modelled by
the wrapper constructors carrying the original error (the source keeps
the cause in the rethrow message or the `console.error` log). -/
inductive JsError
  /-- `atob` threw (`InvalidCharacterError`): malformed base64. -/
  | invalidCharacter
  /-- `DataView.getUint32` threw: buffer shorter than 4 bytes. -/
  | rangeError
  /-- The explicit `Invalid metadata length: n` check in `_decodeWithMetadata`. -/
  | invalidMetadataLength (n : Nat)
  /-- `JSON.parse` threw on the metadata segment. -/
  | jsonParseError
  /-- `DecompressionStream`-based inflation is unavailable in this browser. -/
  | notSupported
  /-- The decompression stream itself failed. -/
  | streamError
  /-- `Failed to decode metadata: ...` rethrow in `_decodeWithMetadata`. -/
  | failedToDecodeMetadata (cause : JsError)
  /-- `Failed to decompress content` rethrow in `decompress`. -/
  | failedToDecompress (cause : JsError)
deriving Repr, DecidableEq

/-- The feature flags the `MakeSitesCompression` constructor detects from
the browser (`'CompressionStream' in window && 'DecompressionStream' in window`). -/
structure CompressionState where
  supportsBrotli : Bool
  supportsGzip : Bool
deriving Repr, DecidableEq

/-- `_encodeWithMetadata(data, metadata)`: `[length][metadata][data]`,
base64-encoded. -/
def encodeWithMetadata (data : List Nat) (metadata : Metadata) : List Char :=
  let metadataBytes := utf8Encode (renderMeta metadata)
  b64EncodeBytes (le32 metadataBytes.length ++ metadataBytes ++ data)

/-- `_decodeWithMetadata(encodedData)`: base64-decode, read and validate
the 4-byte little-endian length prefix, split off and parse the metadata
JSON.  Every internal throw is caught and rethrown as
`Failed to decode metadata: ...`. -/
def decodeWithMetadata (encodedData : List Char) : Except JsError (List Nat × Metadata) :=
  match atobChars encodedData with
  | none => .error (.failedToDecodeMetadata .invalidCharacter)
  | some bytes =>
    if bytes.length < 4 then .error (.failedToDecodeMetadata .rangeError)
    else
      let metadataLength := readLe32 bytes
      if bytes.length - 4 < metadataLength then
        .error (.failedToDecodeMetadata (.invalidMetadataLength metadataLength))
      else
        let metadataBytes := (bytes.drop 4).take metadataLength
        let data := bytes.drop (4 + metadataLength)
        match parseMeta (utf8Decode metadataBytes) with
        | none => .error (.failedToDecodeMetadata .jsonParseError)
        | some metadata => .ok (data, metadata)

/-- The metadata object literal `compress` builds: `v: 1`, `c: 'none'`,
`f: format`, `os: content.length` (JavaScript string length, i.e. UTF-16
code units), `cs: encoded.length` (UTF-8 byte count), `ts: Date.now()`. -/
def compressMetadata (content format : List Char) (now : Nat) : Metadata :=
  { v := 1
    c := "none".data
    f := format
    os := utf16Len content
    cs := (utf8Encode content).length
    ts := now }

/-- `compress(content, format)` from `compression-fixed.js`: UTF-8 encode
the content, attach the metadata record, and frame it — no compression is
ever applied, whatever the constructor detected (`st` is unused, exactly
as the method body never consults `this.supportsBrotli`/`supportsGzip`).
`Date.now()` is passed in as `now`. -/
def compress (st : CompressionState) (content format : List Char) (now : Nat) : List Char :=
  let _ := st
  encodeWithMetadata (utf8Encode content) (compressMetadata content format now)

/-- `decompress(encodedData)` from `compression-fixed.js`.  The browser
decompression primitives (`DecompressionStream('gzip')` for `c === 'gz'`
and `DecompressionStream('deflate')` for `c === 'br'`) are external
builtins, passed in as function parameters.  Any codec tag other than
`gz`/`br` falls into the final `else` and is decoded as-is. -/
def decompress (st : CompressionState)
    (gunzip inflate : List Nat → Option (List Nat))
    (encodedData : List Char) : Except JsError (List Char × Metadata) :=
  match decodeWithMetadata encodedData with
  | .error e => .error (.failedToDecompress e)
  | .ok (data, metadata) =>
    if metadata.c = "gz".data then
      if !st.supportsGzip then .error (.failedToDecompress .notSupported)
      else match gunzip data with
        | none => .error (.failedToDecompress .streamError)
        | some decompressed => .ok (utf8Decode decompressed, metadata)
    else if metadata.c = "br".data then
      if !st.supportsBrotli then .error (.failedToDecompress .notSupported)
      else match inflate data with
        | none => .error (.failedToDecompress .streamError)
        | some decompressed => .ok (utf8Decode decompressed, metadata)
    else
      .ok (utf8Decode data, metadata)

/-- Decoding inverts encoding for any payload and any metadata record
whose strings need no JSON escaping and whose serialised form fits the
32-bit length prefix. -/
theorem decodeWithMetadata_encodeWithMetadata (data : List Nat) (m : Metadata)
    (hdata : ∀ b ∈ data, b < 256)
    (hc : jsonPlain m.c = true) (hf : jsonPlain m.f = true)
    (hfit : (utf8Encode (renderMeta m)).length < 4294967296) :
    decodeWithMetadata (encodeWithMetadata data m) = .ok (data, m) := by
  have hmb : ∀ b ∈ utf8Encode (renderMeta m), b < 256 := utf8Encode_lt_256 _
  have hall : ∀ b ∈ le32 (utf8Encode (renderMeta m)).length ++
      (utf8Encode (renderMeta m) ++ data), b < 256 := by
    intro b hbmem
    rcases List.mem_append.1 hbmem with h | h
    · simp only [le32, List.mem_cons, List.not_mem_nil, or_false] at h
      rcases h with h | h | h | h <;> omega
    · rcases List.mem_append.1 h with h | h
      · exact hmb b h
      · exact hdata b h
  have hdrop4 : ∀ (L : Nat) (tl : List Nat), (le32 L ++ tl).drop 4 = tl := fun _ _ => rfl
  have hlen : (le32 (utf8Encode (renderMeta m)).length ++
      (utf8Encode (renderMeta m) ++ data)).length
      = 4 + ((utf8Encode (renderMeta m)).length + data.length) := by
    simp [le32]
    omega
  rw [decodeWithMetadata, encodeWithMetadata, List.append_assoc,
    atobChars_b64EncodeBytes _ hall]
  simp only []
  rw [if_neg (by omega), readLe32_le32 _ hfit, if_neg (by omega), hdrop4,
    List.take_left' rfl]
  rw [show (le32 (utf8Encode (renderMeta m)).length ++ (utf8Encode (renderMeta m) ++ data))
      = ((le32 (utf8Encode (renderMeta m)).length ++ utf8Encode (renderMeta m)) ++ data)
      from by rw [List.append_assoc]]
  rw [List.drop_left' (by simp [le32]; omega), utf8Decode_utf8Encode, parseMeta_renderMeta m hc hf]

/-! ## JavaScript number semantics for `getStats` / `_formatBytes`

`getStats` computes `(1 - compressedSize/originalSize) * 100` with IEEE
division, so a zero `originalSize` produces an infinity or `NaN` rather
than an error.  Numbers are modelled as exact rationals extended with the
three IEEE special values, with the JavaScript special-value rules for
each operation the source uses. -/

inductive JsNum
  | num (q : ℚ)
  | nan
  | posInf
  | negInf
deriving Repr, DecidableEq

/-- JavaScript subtraction on the values used here. -/
def jsSub : JsNum → JsNum → JsNum
  | .num a, .num b => .num (a - b)
  | .num _, .posInf => .negInf
  | .num _, .negInf => .posInf
  | .posInf, .num _ => .posInf
  | .negInf, .num _ => .negInf
  | .posInf, .negInf => .posInf
  | .negInf, .posInf => .negInf
  | .posInf, .posInf => .nan
  | .negInf, .negInf => .nan
  | _, _ => .nan

/-- JavaScript multiplication. -/
def jsMul : JsNum → JsNum → JsNum
  | .num a, .num b => .num (a * b)
  | .num a, .posInf => if 0 < a then .posInf else if a < 0 then .negInf else .nan
  | .num a, .negInf => if 0 < a then .negInf else if a < 0 then .posInf else .nan
  | .posInf, .num b => if 0 < b then .posInf else if b < 0 then .negInf else .nan
  | .negInf, .num b => if 0 < b then .negInf else if b < 0 then .posInf else .nan
  | .posInf, .posInf => .posInf
  | .posInf, .negInf => .negInf
  | .negInf, .posInf => .negInf
  | .negInf, .negInf => .posInf
  | _, _ => .nan

/-- JavaScript division: `x / 0` is `NaN` for `x = 0` and a signed
infinity otherwise. -/
def jsDiv : JsNum → JsNum → JsNum
  | .num a, .num b =>
    if b = 0 then (if a = 0 then .nan else if 0 < a then .posInf else .negInf)
    else .num (a / b)
  | .num _, .posInf => .num 0
  | .num _, .negInf => .num 0
  | .posInf, .num b => if 0 ≤ b then .posInf else .negInf
  | .negInf, .num b => if 0 ≤ b then .negInf else .posInf
  | _, _ => .nan

/-- `Math.round`: nearest integer, ties towards positive infinity;
special values pass through. -/
def jsRound : JsNum → JsNum
  | .num q => .num (⌊q + 1 / 2⌋ : ℤ)
  | x => x

/-- `Math.floor`; special values pass through. -/
def jsFloor : JsNum → JsNum
  | .num q => .num (⌊q⌋ : ℤ)
  | x => x

/-- `Math.pow k e` on the arguments arising here: the exponent is either
a special value or an integer produced by `Math.floor`. -/
def jsPow (k : ℚ) : JsNum → JsNum
  | .nan => .nan
  | .posInf => .posInf
  | .negInf => .num 0
  | .num q => if q.den = 1 then .num (k ^ q.num) else .nan

/-- Decimal rendering of an integer, as JavaScript prints it. -/
def intToChars (i : Int) : List Char :=
  if i < 0 then '-' :: natToChars i.natAbs else natToChars i.toNat

/-- `(x).toFixed(2)` for non-negative finite `x`: nearest multiple of
1/100 (ties away from zero, i.e. up for non-negative values), always
two decimals. -/
def fixed2Abs (q : ℚ) : List Char :=
  let n := (⌊q * 100 + 1 / 2⌋).toNat
  natToChars (n / 100) ++ '.' :: digitChar (n / 10 % 10) :: [digitChar (n % 10)]

/-- `Number.prototype.toFixed(2)`. -/
def jsToFixed2 : JsNum → List Char
  | .nan => "NaN".data
  | .posInf => "Infinity".data
  | .negInf => "-Infinity".data
  | .num q => if q < 0 then '-' :: fixed2Abs (-q) else fixed2Abs q

/-- Magnitude part of `parseFloat` on the decimal strings produced by
`toFixed`: leading digits, optional fraction, trailing garbage ignored. -/
def parseFloatMag (s : List Char) (neg : Bool) : JsNum :=
  if s.take 8 = "Infinity".data then (if neg then .negInf else .posInf)
  else
    match takeDigits s with
    | ([], _) => .nan
    | (ds, rest) =>
      let ip : ℚ := digitsToNat ds
      match rest with
      | '.' :: rest2 =>
        let fs := (takeDigits rest2).1
        let q : ℚ := ip + (digitsToNat fs : ℚ) / (10 ^ fs.length : ℚ)
        .num (if neg then -q else q)
      | _ => .num (if neg then -ip else ip)

/-- JavaScript `parseFloat`. -/
def jsParseFloat : List Char → JsNum
  | '-' :: rest => parseFloatMag rest true
  | '+' :: rest => parseFloatMag rest false
  | s => parseFloatMag s false

/-- Rendering of a non-negative rational whose denominator divides 100
(every value `parseFloat(x.toFixed(2))` can produce), with trailing
zeros dropped as JavaScript number-to-string conversion does. -/
def ratMagToChars (q : ℚ) : List Char :=
  if q.den = 1 then natToChars q.num.toNat
  else if (q * 10).den = 1 then
    natToChars ((q * 10).num.toNat / 10) ++ '.' :: [digitChar ((q * 10).num.toNat % 10)]
  else if (q * 100).den = 1 then
    natToChars ((q * 100).num.toNat / 100) ++ '.' ::
      digitChar ((q * 100).num.toNat / 10 % 10) :: [digitChar ((q * 100).num.toNat % 10)]
  else "?".data

/-- String conversion of a number, as the `+` concatenation in
`_formatBytes` performs. -/
def jsNumToString : JsNum → List Char
  | .nan => "NaN".data
  | .posInf => "Infinity".data
  | .negInf => "-Infinity".data
  | .num q => if q < 0 then '-' :: ratMagToChars (-q) else ratMagToChars q

/-- JavaScript array indexing `sizes[i]` followed by string conversion:
a non-integral, negative, out-of-range or special index yields
`undefined`, printed as `"undefined"`. -/
def jsIndexStr (l : List (List Char)) : JsNum → List Char
  | .num q =>
    if q.den = 1 ∧ 0 ≤ q.num ∧ q.num.toNat < l.length
    then l.getD q.num.toNat [] else "undefined".data
  | _ => "undefined".data

/-- The unit labels in `_formatBytes` of `compression-fixed.js`. -/
def sizes : List (List Char) := ["Bytes".data, "KB".data, "MB".data, "GB".data]

/-- `_formatBytes(bytes)` from `compression-fixed.js`.  `Math.log` is a
transcendental browser builtin and is passed in as `logf`; every other
step is modelled directly.  `bytes` can be negative (the `saved` call
site passes `originalSize - compressedSize`). -/
def formatBytes (logf : ℚ → JsNum) (bytes : ℚ) : List Char :=
  if bytes = 0 then "0 Bytes".data
  else
    let i := jsFloor (jsDiv (logf bytes) (logf 1024))
    jsNumToString (jsParseFloat (jsToFixed2 (jsDiv (.num bytes) (jsPow 1024 i)))) ++
      ' ' :: jsIndexStr sizes i

structure Readable where
  original : List Char
  compressed : List Char
  saved : List Char
deriving Repr, DecidableEq

structure Stats where
  originalSize : Nat
  compressedSize : Nat
  ratio : JsNum
  readable : Readable
deriving Repr, DecidableEq

/-- `getStats(original, compressed)` from `compression-fixed.js`:
`originalSize` is the UTF-8 byte length of the original text,
`compressedSize` the byte length of the whole base64-decoded transport
string, and `ratio` is `Math.round((1 - compressedSize/originalSize) * 100)`
under IEEE semantics.  A malformed base64 transport string makes `atob`
throw, which `getStats` does not catch. -/
def getStats (logf : ℚ → JsNum) (original compressed : List Char) :
    Except JsError Stats :=
  match atobChars compressed with
  | none => .error .invalidCharacter
  | some bytes =>
    let originalSize := (utf8Encode original).length
    let compressedSize := bytes.length
    let ratio := jsRound (jsMul (jsSub (.num 1)
      (jsDiv (.num compressedSize) (.num originalSize))) (.num 100))
    .ok { originalSize := originalSize
          compressedSize := compressedSize
          ratio := ratio
          readable := { original := formatBytes logf originalSize
                        compressed := formatBytes logf compressedSize
                        saved := formatBytes logf ((originalSize : ℚ) - compressedSize) } }

/-! ## Shared round-trip consequences -/

theorem container_bytes_lt_256 (L : Nat) (mb bytes : List Nat)
    (hmb : ∀ b ∈ mb, b < 256) (hd : ∀ b ∈ bytes, b < 256) :
    ∀ b ∈ le32 L ++ (mb ++ bytes), b < 256 := by
  intro b hbmem
  rcases List.mem_append.1 hbmem with h | h
  · simp only [le32, List.mem_cons, List.not_mem_nil, or_false] at h
    rcases h with h | h | h | h <;> omega
  · rcases List.mem_append.1 h with h | h
    · exact hmb b h
    · exact hd b h

/-- The byte content of the transport string `compress` produces. -/
theorem atobChars_compress (st : CompressionState) (s f : List Char) (now : Nat) :
    atobChars (compress st s f now)
      = some (le32 (utf8Encode (renderMeta (compressMetadata s f now))).length ++
          (utf8Encode (renderMeta (compressMetadata s f now)) ++ utf8Encode s)) := by
  rw [compress, encodeWithMetadata, List.append_assoc]
  exact atobChars_b64EncodeBytes _
    (container_bytes_lt_256 _ _ _ (utf8Encode_lt_256 _) (utf8Encode_lt_256 _))

theorem compressMetadata_c (s f : List Char) (now : Nat) :
    (compressMetadata s f now).c = "none".data := rfl

/-- Shared helper: the full decompress-after-compress computation. -/
theorem decompress_compress_eq (st st2 : CompressionState)
    (gunzip inflate : List Nat → Option (List Nat))
    (s f : List Char) (now : Nat) (hf : jsonPlain f = true)
    (hfit : (utf8Encode (renderMeta (compressMetadata s f now))).length < 4294967296) :
    decompress st2 gunzip inflate (compress st s f now)
      = .ok (s, compressMetadata s f now) := by
  have hc : jsonPlain (compressMetadata s f now).c = true := by
    rw [compressMetadata_c]
    decide
  have hdec : decodeWithMetadata (compress st s f now)
      = .ok (utf8Encode s, compressMetadata s f now) := by
    rw [compress]
    exact decodeWithMetadata_encodeWithMetadata _ _ (utf8Encode_lt_256 s) hc hf hfit
  rw [decompress, hdec]
  simp only []
  rw [compressMetadata_c, if_neg (by decide), if_neg (by decide), utf8Decode_utf8Encode]

/-! ## Claims -/

/-- C1: for every string `s` and format tag `f`, decompressing the
transport string produced by `compress` succeeds and its content equals
`s` bytewise.  The fixed implementation routes every compression through
the `none` codec path, so this covers every codec path its `compress`
uses; the result holds whatever capability flags either instance
detected and whatever the external decompression primitives do. -/
theorem c1_roundtrip (st st2 : CompressionState)
    (gunzip inflate : List Nat → Option (List Nat))
    (s f : List Char) (now : Nat) (hf : jsonPlain f = true)
    (hfit : (utf8Encode (renderMeta (compressMetadata s f now))).length < 4294967296) :
    ∃ m : Metadata,
      decompress st2 gunzip inflate (compress st s f now) = .ok (s, m) :=
  ⟨compressMetadata s f now, decompress_compress_eq st st2 gunzip inflate s f now hf hfit⟩

theorem c1_roundtrip_witness :
    jsonPlain "html".data = true ∧
    (utf8Encode (renderMeta (compressMetadata "hi".data "html".data 7))).length
      < 4294967296 ∧
    ∃ m : Metadata,
      decompress ⟨true, true⟩ (fun _ => none) (fun _ => none)
        (compress ⟨false, false⟩ "hi".data "html".data 7) = .ok ("hi".data, m) :=
  ⟨by decide, by decide,
    c1_roundtrip ⟨false, false⟩ ⟨true, true⟩ (fun _ => none) (fun _ => none)
      "hi".data "html".data 7 (by decide) (by decide)⟩

/-- C2: the base64-decoded container of any transport string produced by
`compress` starts with 4 bytes that, read as a little-endian unsigned
32-bit integer, equal the byte length of the UTF-8-encoded metadata JSON
segment, and the total container byte length is `4 + metaLen + payloadLen`. -/
theorem c2_framing (st : CompressionState) (s f : List Char) (now : Nat)
    (hfit : (utf8Encode (renderMeta (compressMetadata s f now))).length < 4294967296) :
    ∃ bytes : List Nat,
      atobChars (compress st s f now) = some bytes ∧
      readLe32 bytes = (utf8Encode (renderMeta (compressMetadata s f now))).length ∧
      bytes.length = 4 + (utf8Encode (renderMeta (compressMetadata s f now))).length
        + (utf8Encode s).length := by
  refine ⟨_, atobChars_compress st s f now, readLe32_le32 _ hfit _, ?_⟩
  simp [le32]
  omega

theorem c2_framing_witness :
    (utf8Encode (renderMeta (compressMetadata "hi".data "html".data 7))).length
      < 4294967296 ∧
    ∃ bytes : List Nat,
      atobChars (compress ⟨true, true⟩ "hi".data "html".data 7) = some bytes ∧
      readLe32 bytes
        = (utf8Encode (renderMeta (compressMetadata "hi".data "html".data 7))).length ∧
      bytes.length
        = 4 + (utf8Encode (renderMeta (compressMetadata "hi".data "html".data 7))).length
          + (utf8Encode "hi".data).length :=
  ⟨by decide, c2_framing ⟨true, true⟩ "hi".data "html".data 7 (by decide)⟩

/-- C3: any input whose base64-decoded bytes carry a 4-byte length prefix
larger than the number of remaining bytes makes `decompress` fail with
the explicit invalid-metadata-length error (wrapped by the two rethrow
layers, each of which keeps the cause); no content is ever returned, so
nothing is read out of bounds or silently truncated. -/
theorem c3_invalid_metadata_length (st : CompressionState)
    (gunzip inflate : List Nat → Option (List Nat))
    (input : List Char) (bytes : List Nat)
    (hb : atobChars input = some bytes) (h4 : ¬ bytes.length < 4)
    (hgt : bytes.length - 4 < readLe32 bytes) :
    decompress st gunzip inflate input =
      .error (.failedToDecompress (.failedToDecodeMetadata
        (.invalidMetadataLength (readLe32 bytes)))) := by
  rw [decompress, decodeWithMetadata, hb]
  simp only []
  rw [if_neg h4, if_pos hgt]

theorem c3_invalid_metadata_length_witness :
    atobChars "/////w==".data = some [255, 255, 255, 255] ∧
    ¬ ([255, 255, 255, 255] : List Nat).length < 4 ∧
    ([255, 255, 255, 255] : List Nat).length - 4 < readLe32 [255, 255, 255, 255] ∧
    decompress ⟨true, true⟩ (fun _ => none) (fun _ => none) "/////w==".data =
      .error (.failedToDecompress (.failedToDecodeMetadata
        (.invalidMetadataLength (readLe32 [255, 255, 255, 255])))) :=
  ⟨by decide, by decide, by decide,
    c3_invalid_metadata_length ⟨true, true⟩ (fun _ => none) (fun _ => none)
      "/////w==".data [255, 255, 255, 255] (by decide) (by decide) (by decide)⟩

/-- A well-framed container whose metadata codec tag is the unsupported
value `zzz`: the canonical framing around the payload bytes of `hi`. -/
def zzzMeta : Metadata :=
  { v := 1, c := "zzz".data, f := "text".data, os := 2, cs := 2, ts := 0 }

/-- The transport string carrying `zzzMeta` and the payload `hi`. -/
def zzzTransport : List Char := encodeWithMetadata (utf8Encode "hi".data) zzzMeta

/-- C4: the claim fails on `compression-fixed.js`.  Decoding a well-framed
container whose metadata `c` is the unsupported tag `zzz` does not fail:
the final `else` of `decompress` treats every unrecognised tag like
`none` and silently passes the payload through as decoded text. -/
theorem c4_zzz_silent_pass_through :
    decompress ⟨false, false⟩ (fun _ => none) (fun _ => none) zzzTransport
      = .ok ("hi".data, zzzMeta) := by
  have h : (decompress ⟨false, false⟩ (fun _ => none) (fun _ => none)
      zzzTransport).toOption = some ("hi".data, zzzMeta) := by decide
  cases hd : decompress ⟨false, false⟩ (fun _ => none) (fun _ => none) zzzTransport with
  | error e => rw [hd] at h; exact absurd h (by simp [Except.toOption])
  | ok v =>
    rw [hd] at h
    simp only [Except.toOption, Option.some.injEq] at h
    rw [h]

/-- C5 counterexample: the claim that `os` is the UTF-8 byte length fails
at the one-character string `é`, whose UTF-8 encoding takes 2 bytes while
`compress` stores `os = content.length = 1` (JavaScript string length). -/
theorem c5_os_counterexample :
    (decodeWithMetadata (compress ⟨false, false⟩ ['é'] "text".data 0)).toOption
      = some (utf8Encode ['é'], compressMetadata ['é'] "text".data 0)
    ∧ (compressMetadata ['é'] "text".data 0).os = 1
    ∧ (utf8Encode ['é']).length = 2 := by decide

/-- C5 (amended): the metadata record produced by `compress` has `os`
equal to the JavaScript string length of the input (its UTF-16 code-unit
count), not its UTF-8 byte length; the two agree on ASCII input, and in
particular the empty string yields `os = 0`. -/
theorem c5_os_is_utf16_length (st st2 : CompressionState)
    (gunzip inflate : List Nat → Option (List Nat))
    (s f : List Char) (now : Nat) (hf : jsonPlain f = true)
    (hfit : (utf8Encode (renderMeta (compressMetadata s f now))).length < 4294967296) :
    ∃ m : Metadata,
      decompress st2 gunzip inflate (compress st s f now) = .ok (s, m)
      ∧ m.os = utf16Len s :=
  ⟨compressMetadata s f now,
    decompress_compress_eq st st2 gunzip inflate s f now hf hfit, rfl⟩

theorem c5_os_is_utf16_length_witness :
    jsonPlain "text".data = true ∧
    (utf8Encode (renderMeta (compressMetadata [] "text".data 0))).length < 4294967296 ∧
    utf16Len [] = 0 ∧
    ∃ m : Metadata,
      decompress ⟨false, false⟩ (fun _ => none) (fun _ => none)
        (compress ⟨false, false⟩ [] "text".data 0) = .ok ([], m)
      ∧ m.os = utf16Len [] :=
  ⟨by decide, by decide, by decide,
    c5_os_is_utf16_length ⟨false, false⟩ ⟨false, false⟩ (fun _ => none) (fun _ => none)
      [] "text".data 0 (by decide) (by decide)⟩

/-- C6: round-tripping preserves the format tag, records the codec that
was actually used (`none`, one of the spec's identifiers), and keeps the
schema version at 1. -/
theorem c6_metadata_integrity (st st2 : CompressionState)
    (gunzip inflate : List Nat → Option (List Nat))
    (s f : List Char) (now : Nat) (hf : jsonPlain f = true)
    (hfit : (utf8Encode (renderMeta (compressMetadata s f now))).length < 4294967296) :
    ∃ m : Metadata,
      decompress st2 gunzip inflate (compress st s f now) = .ok (s, m)
      ∧ m.f = f ∧ m.c = "none".data ∧ m.v = 1 :=
  ⟨compressMetadata s f now,
    decompress_compress_eq st st2 gunzip inflate s f now hf hfit, rfl, rfl, rfl⟩

theorem c6_metadata_integrity_witness :
    jsonPlain "json".data = true ∧
    (utf8Encode (renderMeta (compressMetadata "x".data "json".data 3))).length
      < 4294967296 ∧
    ∃ m : Metadata,
      decompress ⟨true, false⟩ (fun _ => none) (fun _ => none)
        (compress ⟨true, false⟩ "x".data "json".data 3) = .ok ("x".data, m)
      ∧ m.f = "json".data ∧ m.c = "none".data ∧ m.v = 1 :=
  ⟨by decide, by decide,
    c6_metadata_integrity ⟨true, false⟩ ⟨true, false⟩ (fun _ => none) (fun _ => none)
      "x".data "json".data 3 (by decide) (by decide)⟩

/-- C9: in the compression-fixed variant, `compress` never compresses:
for every input, format and capability state, the emitted metadata has
`c = 'none'` and the payload segment is exactly the raw UTF-8 bytes of
the input — the method body never consults the detected
`supportsBrotli`/`supportsGzip` flags. -/
theorem c9_never_compresses (st : CompressionState) (s f : List Char) (now : Nat)
    (hf : jsonPlain f = true)
    (hfit : (utf8Encode (renderMeta (compressMetadata s f now))).length < 4294967296) :
    decodeWithMetadata (compress st s f now)
      = .ok (utf8Encode s, compressMetadata s f now)
    ∧ (compressMetadata s f now).c = "none".data := by
  constructor
  · rw [compress]
    exact decodeWithMetadata_encodeWithMetadata _ _ (utf8Encode_lt_256 s)
      (by rw [compressMetadata_c]; decide) hf hfit
  · rfl

theorem c9_never_compresses_witness :
    jsonPlain "html".data = true ∧
    (utf8Encode (renderMeta (compressMetadata "ab".data "html".data 9))).length
      < 4294967296 ∧
    (decodeWithMetadata (compress ⟨true, true⟩ "ab".data "html".data 9)
      = .ok (utf8Encode "ab".data, compressMetadata "ab".data "html".data 9)
    ∧ (compressMetadata "ab".data "html".data 9).c = "none".data) :=
  ⟨by decide, by decide,
    c9_never_compresses ⟨true, true⟩ "ab".data "html".data 9 (by decide) (by decide)⟩

theorem jsDiv_nan_left (x : JsNum) : jsDiv .nan x = .nan := by cases x <;> rfl

/-- C7: `getStats` reports `originalSize` as the UTF-8 byte length of the
original text, `compressedSize` as the byte length of the entire
base64-decoded transport string — the whole container including the
4-byte prefix and the metadata JSON, not the inner payload `cs` — and,
for a nonempty original, `ratio = round((1 - compressedSize/originalSize)
* 100)`; nothing in the computation treats a negative ratio as an error. -/
theorem c7_getStats_container_size (logf : ℚ → JsNum) (st : CompressionState)
    (original s f : List Char) (now : Nat)
    (hpos : 0 < (utf8Encode original).length) :
    ∃ stats : Stats,
      getStats logf original (compress st s f now) = .ok stats
      ∧ stats.originalSize = (utf8Encode original).length
      ∧ stats.compressedSize
          = 4 + (utf8Encode (renderMeta (compressMetadata s f now))).length
            + (utf8Encode s).length
      ∧ stats.ratio = .num ((⌊(1 - ((4 + (utf8Encode (renderMeta
              (compressMetadata s f now))).length + (utf8Encode s).length : Nat) : ℚ)
            / ((utf8Encode original).length : ℚ)) * 100 + 1 / 2⌋ : ℤ) : ℚ) := by
  rw [getStats, atobChars_compress]
  simp only []
  have hcs : (le32 (utf8Encode (renderMeta (compressMetadata s f now))).length ++
      (utf8Encode (renderMeta (compressMetadata s f now)) ++ utf8Encode s)).length
      = 4 + (utf8Encode (renderMeta (compressMetadata s f now))).length
        + (utf8Encode s).length := by
    simp [le32]
    omega
  refine ⟨_, rfl, rfl, hcs, ?_⟩
  have hos : (((utf8Encode original).length : Nat) : ℚ) ≠ 0 :=
    Nat.cast_ne_zero.2 (by omega)
  simp only [hcs, jsDiv, jsSub, jsMul, jsRound]
  rw [if_neg hos]

theorem c7_getStats_container_size_witness :
    0 < (utf8Encode "a".data).length ∧
    ∃ stats : Stats,
      getStats (fun _ => .nan) "a".data
          (compress ⟨false, false⟩ "a".data "html".data 0) = .ok stats
      ∧ stats.originalSize = (utf8Encode "a".data).length
      ∧ stats.compressedSize
          = 4 + (utf8Encode (renderMeta (compressMetadata "a".data "html".data 0))).length
            + (utf8Encode "a".data).length
      ∧ stats.ratio = .num ((⌊(1 - ((4 + (utf8Encode (renderMeta
              (compressMetadata "a".data "html".data 0))).length
              + (utf8Encode "a".data).length : Nat) : ℚ)
            / ((utf8Encode "a".data).length : ℚ)) * 100 + 1 / 2⌋ : ℤ) : ℚ) :=
  ⟨by decide,
    c7_getStats_container_size (fun _ => .nan) ⟨false, false⟩
      "a".data "a".data "html".data 0 (by decide)⟩

/-- C8: the claim fails on the code.  `getStats` performs no zero-length
handling: with an empty original text the IEEE division
`compressedSize / 0` produces `Infinity`, and the reported ratio is
`-Infinity` rather than a defined finite value. -/
theorem c8_empty_original_ratio_neg_infinity :
    (getStats (fun _ => .nan) []
        (compress ⟨false, false⟩ [] "text".data 0)).toOption.map Stats.ratio
      = some .negInf := by decide

/-- C10: whenever the decoded transport container is larger than the
original text (always the case for small inputs, since the container
adds a 4-byte prefix and the metadata JSON), `readable.saved` is
`_formatBytes(originalSize - compressedSize)` of a negative number:
`Math.log` of a negative value is `NaN`, `Math.floor`/`Math.pow`/division
propagate it, `toFixed` renders `"NaN"`, and indexing the unit array with
`NaN` gives `undefined`, so the final string is `NaN undefined`. -/
theorem c10_saved_nan (logf : ℚ → JsNum)
    (hlog : ∀ q : ℚ, q ≤ 0 → logf q = .nan)
    (original transport : List Char) (bytes : List Nat)
    (hb : atobChars transport = some bytes)
    (hgt : (utf8Encode original).length < bytes.length) :
    ∃ stats : Stats, getStats logf original transport = .ok stats
      ∧ stats.readable.saved = "NaN undefined".data := by
  rw [getStats, hb]
  simp only []
  refine ⟨_, rfl, ?_⟩
  simp only []
  have hneg : (((utf8Encode original).length : Nat) : ℚ) - ((bytes.length : Nat) : ℚ)
      < 0 := by
    rw [sub_neg]
    exact_mod_cast hgt
  rw [formatBytes, if_neg (ne_of_lt hneg), hlog _ (le_of_lt hneg), jsDiv_nan_left]
  simp only []
  rw [show jsFloor .nan = .nan from rfl, show jsPow 1024 .nan = .nan from rfl]
  rw [show jsDiv (.num ((((utf8Encode original).length : Nat) : ℚ)
      - ((bytes.length : Nat) : ℚ))) .nan = .nan from rfl]
  rw [show jsToFixed2 .nan = "NaN".data from rfl,
    show jsParseFloat "NaN".data = .nan from by decide,
    show jsNumToString .nan = "NaN".data from rfl,
    show jsIndexStr sizes .nan = "undefined".data from rfl]
  decide

theorem c10_saved_nan_witness :
    atobChars "AAAA".data = some [0, 0, 0] ∧
    (utf8Encode "a".data).length < ([0, 0, 0] : List Nat).length ∧
    ∃ stats : Stats,
      getStats (fun q => if q ≤ 0 then JsNum.nan else .num 0) "a".data "AAAA".data
        = .ok stats
      ∧ stats.readable.saved = "NaN undefined".data :=
  ⟨by decide, by decide,
    c10_saved_nan (fun q => if q ≤ 0 then JsNum.nan else .num 0)
      (fun _ hq => if_pos hq) "a".data "AAAA".data [0, 0, 0] (by decide) (by decide)⟩

end MakeSites
